import Mathlib

/-!
Verification of `bin/createReference.py` (mingle).

The development shallowly embeds the taxonomy-table builder
(`create_taxonomy_file`) and the module-level merge loop of the script.
File handles are modelled by lists of emitted lines / records, Python
dicts by association lists or (for the identity-valued `seen_taxonomies`
dict) by the list of inserted keys, and the filesystem of per-proteome
Stockholm alignment files by an association list from file name to the
parsed sequence records.
-/

namespace Mingle

/-- Python's `sep.join(parts)` for a list of strings. -/
def joinSep (sep : String) : List String → String
  | [] => ""
  | [x] => x
  | x :: xs => x ++ sep ++ joinSep sep xs

/-- Split a character list at every occurrence of the separator
character.  Always returns at least one (possibly empty) field. -/
def splitSep (c : Char) : List Char → List (List Char)
  | [] => [[]]
  | a :: l =>
    let r := splitSep c l
    if a = c then [] :: r else (a :: r.headD []) :: r.tail

/-- Number of comma-separated fields of a line, i.e. the number of
pieces the line falls into when split at every comma. -/
def fieldCount (s : String) : Nat := (splitSep ',' s.data).length

/-- Modelled from the spec: `TaxonomyString.names()`
(module `mingle.taxonomy_string`, not part of the sources).  Section 4.2:
the ordered sequence of rank tokens obtained by splitting on the
hierarchy delimiter ";", discarding the literal "root" token when it is
the first token; an input that reduces to zero tokens yields the empty
sequence (empty pieces are dropped, so the empty string yields no
tokens).  `rawTokens` is the token list before the root token is
dropped; `names` is the full model. -/
def rawTokens (s : String) : List String :=
  ((splitSep ';' s.data).map (fun cs => String.mk cs)).filter (fun t => t ≠ "")

/-- Drop the literal "root" token when it is the first token. -/
def dropRootToken : List String → List String
  | [] => []
  | t :: rest => if t = "root" then rest else t :: rest

/-- Modelled from the spec (section 4.2, with `rawTokens` above): the
rank token sequence of a taxonomy string. -/
def names (s : String) : List String := dropRootToken (rawTokens s)

/-- Modelled from the spec: `TaxonomyString.full_name()`
(module `mingle.taxonomy_string`, not part of the sources).  Section 4.2:
the normalized string, the rank tokens re-joined with the delimiter and
no surrounding whitespace; empty token sequence gives the empty
string. -/
def full_name (s : String) : String := joinSep ";" (names s)

/-- One data row of `taxonomy.csv`: the `to_write` list built at
createReference.py lines 79-80, before joining with commas.
`aboves` is the ancestor chain `['root', 'root;..', ...]`. -/
structure TaxRow where
  tax_id : String
  parent_id : String
  rank : String
  tax_name : String
  aboves : List String
  deriving Repr, DecidableEq

/-- The inner loop of `create_taxonomy_file` (createReference.py lines
65-87): walk the rank tokens of one taxonomy, building the lineage path
incrementally; emit a row for every lineage path not in
`seen_taxonomies`, and advance the parent pointer in either case.
`seen` is the insertion-ordered key list of the `seen_taxonomies` dict
(whose values equal its keys).  Returns the final `seen` and the rows
emitted by this walk, in emission order. -/
def writeTaxa (ranks : List String) :
    (splits : List String) → (rank_i : Nat) → (parent_id current : String) →
    (aboves seen : List String) → List String × List TaxRow
  | [], _, _, _, _, seen => (seen, [])
  | taxon :: rest, rank_i, parent_id, current, aboves, seen =>
    let cur := if rank_i = 0 then "root;" ++ taxon else current ++ ";" ++ taxon
    let aboves2 := aboves ++ [cur]
    if cur ∈ seen then
      writeTaxa ranks rest (rank_i + 1) cur cur aboves2 seen
    else
      let res := writeTaxa ranks rest (rank_i + 1) cur cur aboves2 (seen ++ [cur])
      (res.1, ⟨cur, parent_id, ranks.getD rank_i "", taxon, aboves2⟩ :: res.2)

/-- The warning logged at createReference.py line 62 for a taxonomy with
more rank tokens than configured ranks. -/
def malformedWarning (tax_set : String) : String :=
  "Ignoring taxon that appears malformed from the .greengenes file: " ++ tax_set

/-- Result of processing taxonomies: rows emitted, the final
`seen_taxonomies` key list, and the warnings logged. -/
structure TaxFile where
  rows : List TaxRow
  seen : List String
  warnings : List String
  deriving Repr, DecidableEq

/-- One iteration of the `for tax_set in taxonomies` loop of
`create_taxonomy_file` (createReference.py lines 54-87): skip an empty
taxonomy, warn and skip one with more tokens than ranks, otherwise walk
its tokens with `writeTaxa` starting from parent `'root'`. -/
def processTaxonomy (ranks seen : List String) (tax_set : String) : TaxFile :=
  let splits := names tax_set
  if full_name tax_set = "" then ⟨[], seen, []⟩
  else if ranks.length < splits.length then ⟨[], seen, [malformedWarning tax_set]⟩
  else
    let res := writeTaxa ranks splits 0 "root" "" ["root"] seen
    ⟨res.2, res.1, []⟩

/-- The whole `for tax_set in taxonomies` loop, threading
`seen_taxonomies` through and concatenating emitted rows and warnings in
input order. -/
def create_taxonomy_rows (ranks : List String) :
    (taxonomies seen : List String) → TaxFile
  | [], seen => ⟨[], seen, []⟩
  | t :: ts, seen =>
    let first := processTaxonomy ranks seen t
    let rest := create_taxonomy_rows ranks ts first.seen
    ⟨first.rows ++ rest.rows, rest.seen, first.warnings ++ rest.warnings⟩

/-- A run of `n` padding commas (createReference.py lines 50-51 and
82-83). -/
def commaPad (n : Nat) : String := String.mk (List.replicate n ',')

/-- The header line (createReference.py lines 41-43). -/
def headerLine (ranks : List String) : String :=
  joinSep "," (["tax_id", "parent_id", "rank", "tax_name", "root"] ++ ranks)

/-- The root row line (createReference.py lines 48-52): four `root`
fields joined by commas, padded with empty fields to the column
count. -/
def rootLine (numCols : Nat) : String :=
  joinSep "," ["root", "root", "root", "root"] ++ commaPad (numCols - 4)

/-- Render one data row as its CSV line (createReference.py lines
79-83): join the `to_write` fields with commas and pad with empty fields
to the column count. -/
def renderRow (numCols : Nat) (r : TaxRow) : String :=
  let to_write := [r.tax_id, r.parent_id, r.rank, r.tax_name] ++ r.aboves
  joinSep "," to_write ++ commaPad (numCols - to_write.length)

/-- `create_taxonomy_file` (createReference.py lines 37-90): the lines
written to the output handle, in order, paired with the structured
result (rows, final `seen_taxonomies`, warnings).  The function's Python
return value is the `seen_taxonomies` dict, i.e. the `seen` field. -/
def create_taxonomy_file (taxonomies ranks : List String) :
    List String × TaxFile :=
  let numCols := 5 + ranks.length
  let tf := create_taxonomy_rows ranks taxonomies []
  (headerLine ranks :: rootLine numCols :: tf.rows.map (renderRow numCols), tf)

/-! ## The merge stage (createReference.py lines 180-218)

The loop over `proteomes` that concatenates the per-proteome aligned
sequences into `aligned.fasta` and writes `seq_info.csv`. -/

/-- `os.path.basename`: the part of a path after the last slash. -/
def basename (s : String) : String :=
  String.mk ((s.data.reverse.takeWhile (fun c => c ≠ '/')).reverse)

/-- `os.path.basename(proteome).split('.')[0]` (createReference.py line
191): the genome/database ID of a proteome path. -/
def dbIdOf (proteome : String) : String :=
  String.mk ((basename proteome).data.takeWhile (fun c => c ≠ '.'))

/-- `re.sub(' ', '', tax)` (createReference.py line 195). -/
def removeSpaces (s : String) : String :=
  String.mk (s.data.filter (fun c => c ≠ ' '))

/-- Lookup in `taxon_name_to_taxonomy_id`, the `seen_taxonomies` dict
returned by `create_taxonomy_file`, whose values equal its keys; `none`
models the `KeyError`. -/
def lookupTaxId (taxIds : List String) (key : String) : Option String :=
  if key ∈ taxIds then some key else none

/-- The state threaded through the merge loop: the running
`sequence_number`, the data rows of `seq_info.csv`
(`(seqname, tax_id)` pairs), the records of `aligned.fasta`
(`(name, sequence)` pairs) and the warnings logged inside the loop
(none ever are). -/
structure MergeState where
  seqNum : Nat
  seqinfo : List (String × String)
  fasta : List (String × String)
  warnings : List String
  deriving Repr, DecidableEq

/-- State before the merge loop (createReference.py lines 181-185). -/
def initMergeState : MergeState := ⟨0, [], [], []⟩

/-- The `try`/`except KeyError` of createReference.py lines 193-197:
`some taxonomy_id` when both the genome-to-taxonomy lookup and the
taxonomy-path-to-ID lookup succeed (the condition under which
`tax is not None`), `none` otherwise. -/
def resolveTax (aceMap : List (String × String)) (taxIds : List String)
    (db_id : String) : Option String :=
  (aceMap.lookup db_id).bind
    (fun tax => lookupTaxId taxIds ("root;" ++ removeSpaces tax))

/-- The inner `for name, seq in seqs.items()` loop (createReference.py
lines 200-215) for one proteome: build the new name from the current
counter, and when the taxonomy resolved, append the `seq_info.csv` row
and the FASTA record and advance the counter. -/
def mergeSeqs (db_id : String) (taxRes : Option String) :
    MergeState → List (String × String) → MergeState
  | st, [] => st
  | st, nameseq :: rest =>
    let new_name := db_id ++ "_" ++ toString (st.seqNum + 1)
    match taxRes with
    | none => mergeSeqs db_id taxRes st rest
    | some taxonomy_id =>
      mergeSeqs db_id taxRes
        ⟨st.seqNum + 1,
         st.seqinfo ++ [(new_name, taxonomy_id)],
         st.fasta ++ [(new_name, nameseq.2)],
         st.warnings⟩ rest

/-- One iteration of the `for proteome in proteomes` merge loop
(createReference.py lines 186-215).  `stoFiles` models the directory of
per-proteome Stockholm alignments: an association from
`basename(proteome) + ".sto"` to the parsed name-to-sequence records
(`none` lookup = the file does not exist = no hits, skip). -/
def processProteome (aceMap : List (String × String)) (taxIds : List String)
    (stoFiles : List (String × List (String × String)))
    (st : MergeState) (proteome : String) : MergeState :=
  match stoFiles.lookup (basename proteome ++ ".sto") with
  | none => st
  | some seqs =>
    let db_id := dbIdOf proteome
    mergeSeqs db_id (resolveTax aceMap taxIds db_id) st seqs

/-- The merge loop over (a tail of) the proteome list, in input
order. -/
def mergeAllFrom (aceMap : List (String × String)) (taxIds : List String)
    (stoFiles : List (String × List (String × String))) :
    MergeState → List String → MergeState
  | st, [] => st
  | st, proteome :: rest =>
    mergeAllFrom aceMap taxIds stoFiles
      (processProteome aceMap taxIds stoFiles st proteome) rest

/-- The whole merge loop over the proteome list, from the initial
state. -/
def mergeAll (aceMap : List (String × String)) (taxIds : List String)
    (stoFiles : List (String × List (String × String)))
    (proteomes : List String) : MergeState :=
  mergeAllFrom aceMap taxIds stoFiles initMergeState proteomes

/-- The fatal check after the merge loop (createReference.py line 217):
`raise Exception(...)` when zero sequences were written, otherwise the
pipeline proceeds with the merged state. -/
def mergeStage (aceMap : List (String × String)) (taxIds : List String)
    (stoFiles : List (String × List (String × String)))
    (proteomes : List String) : Except String MergeState :=
  let st := mergeAll aceMap taxIds stoFiles proteomes
  if st.seqNum = 0 then
    Except.error "No matching sequences detected, cannot create tree"
  else Except.ok st

/-- Whether the tree stage (createReference.py line 224) is reached: it
runs exactly when the merge stage did not raise. -/
def treeStageReached (aceMap : List (String × String)) (taxIds : List String)
    (stoFiles : List (String × List (String × String)))
    (proteomes : List String) : Bool :=
  match mergeStage aceMap taxIds stoFiles proteomes with
  | Except.ok _ => true
  | Except.error _ => false

/-- The `seqname` column values of `seq_info.csv` (header excluded). -/
def seqinfoNames (st : MergeState) : List String := st.seqinfo.map Prod.fst

/-- The header lines written to `aligned.fasta` (createReference.py line
213): one per record, the name with a leading `>`. -/
def fastaHeaders (st : MergeState) : List String :=
  st.fasta.map (fun r => ">" ++ r.1)

/-! ## Basic facts about the taxonomy-string model -/

theorem mem_dropRootToken {l : List String} {x : String}
    (hx : x ∈ dropRootToken l) : x ∈ l := by
  cases l with
  | nil => simp [dropRootToken] at hx
  | cons t rest =>
    simp only [dropRootToken] at hx
    by_cases ht : t = "root"
    · rw [if_pos ht] at hx
      exact List.mem_cons_of_mem t hx
    · rwa [if_neg ht] at hx

theorem mem_names_ne_empty {s x : String} (hx : x ∈ names s) : x ≠ "" := by
  have hraw : x ∈ rawTokens s := mem_dropRootToken hx
  simpa using (List.mem_filter.mp hraw).2

theorem full_name_ne_empty {s : String} (h : names s ≠ []) : full_name s ≠ "" := by
  unfold full_name
  match hn : names s with
  | [] => exact absurd hn h
  | [x] =>
    have hx : x ≠ "" := mem_names_ne_empty (hn ▸ List.mem_singleton_self x)
    simpa [joinSep] using hx
  | x :: y :: r =>
    show x ++ ";" ++ joinSep ";" (y :: r) ≠ ""
    intro hcontra
    have := congrArg String.data hcontra
    simp [String.ext_iff] at this

/-! ## C3: the worked two-taxonomy example -/

/-- C3: With taxonomy strings `["root;A;B", "root;A;C"]` and the two
ranks kingdom, phylum, `create_taxonomy_file` writes exactly 3 non-root
rows: `root;A` with parent `root`, `root;A;B` with parent `root;A`, and
`root;A;C` with parent `root;A`; the `root;A` row is emitted once even
though the prefix occurs in both inputs. -/
theorem create_taxonomy_file_example :
    (create_taxonomy_file ["root;A;B", "root;A;C"] ["kingdom", "phylum"]).2.rows =
      [⟨"root;A", "root", "kingdom", "A", ["root", "root;A"]⟩,
       ⟨"root;A;B", "root;A", "phylum", "B", ["root", "root;A", "root;A;B"]⟩,
       ⟨"root;A;C", "root;A", "phylum", "C", ["root", "root;A", "root;A;C"]⟩] := by
  decide

/-! ## C4: malformed (too deep) taxonomy strings -/

/-- C4: a taxonomy string with more rank tokens than configured ranks
contributes zero rows, leaves the seen-taxonomies map unchanged, and
produces only a logged warning (the total function returns normally, so
no exception is raised). -/
theorem processTaxonomy_malformed (ranks seen : List String) (t : String)
    (h : ranks.length < (names t).length) :
    processTaxonomy ranks seen t = ⟨[], seen, [malformedWarning t]⟩ := by
  have hne : names t ≠ [] := by
    intro h0
    rw [h0] at h
    simp at h
  have hfn := full_name_ne_empty hne
  unfold processTaxonomy
  rw [if_neg hfn, if_pos h]

theorem processTaxonomy_malformed_witness :
    (["kingdom"].length < (names "root;A;B").length) ∧
      processTaxonomy ["kingdom"] [] "root;A;B" =
        ⟨[], [], [malformedWarning "root;A;B"]⟩ :=
  ⟨by decide, processTaxonomy_malformed ["kingdom"] [] "root;A;B" (by decide)⟩

/-! ## Seen-taxonomies bookkeeping: the emitted `tax_id`s are exactly
the keys added to `seen_taxonomies` -/

theorem writeTaxa_seen (ranks : List String) :
    ∀ (splits : List String) (k : Nat) (p c : String) (ab seen : List String),
      (writeTaxa ranks splits k p c ab seen).1 =
        seen ++ ((writeTaxa ranks splits k p c ab seen).2).map TaxRow.tax_id := by
  intro splits
  induction splits with
  | nil => intro k p c ab seen; simp [writeTaxa]
  | cons taxon rest ih =>
    intro k p c ab seen
    simp only [writeTaxa]
    generalize (if k = 0 then "root;" ++ taxon else c ++ ";" ++ taxon) = cur
    by_cases hmem : cur ∈ seen
    · rw [if_pos hmem]
      exact ih (k + 1) cur cur (ab ++ [cur]) seen
    · rw [if_neg hmem]
      simp only [List.map_cons]
      rw [ih (k + 1)]
      simp

theorem processTaxonomy_seen (ranks seen : List String) (t : String) :
    (processTaxonomy ranks seen t).seen =
      seen ++ ((processTaxonomy ranks seen t).rows).map TaxRow.tax_id := by
  simp only [processTaxonomy]
  split
  · simp
  · split
    · simp
    · exact writeTaxa_seen ranks (names t) 0 "root" "" ["root"] seen

theorem create_taxonomy_rows_seen (ranks : List String) :
    ∀ (ts seen : List String),
      (create_taxonomy_rows ranks ts seen).seen =
        seen ++ ((create_taxonomy_rows ranks ts seen).rows).map TaxRow.tax_id := by
  intro ts
  induction ts with
  | nil => intro seen; simp [create_taxonomy_rows]
  | cons t ts ih =>
    intro seen
    simp only [create_taxonomy_rows, List.map_append]
    rw [ih, processTaxonomy_seen]
    simp

/-! ## C1: every row's parent was written earlier -/

/-- Rows are parent-consistent relative to a list of already-written
IDs: each row's parent is `root` or already present, and each row makes
its own ID present for the rows after it. -/
def parentsOk : List String → List TaxRow → Prop
  | _, [] => True
  | ids, row :: rest =>
    (row.parent_id = "root" ∨ row.parent_id ∈ ids) ∧
      parentsOk (ids ++ [row.tax_id]) rest

theorem writeTaxa_parentsOk (ranks : List String) :
    ∀ (splits : List String) (k : Nat) (p c : String) (ab seen : List String),
      (p = "root" ∨ p ∈ seen) →
      parentsOk seen (writeTaxa ranks splits k p c ab seen).2 := by
  intro splits
  induction splits with
  | nil => intro k p c ab seen _; simp [writeTaxa, parentsOk]
  | cons taxon rest ih =>
    intro k p c ab seen hp
    simp only [writeTaxa]
    generalize (if k = 0 then "root;" ++ taxon else c ++ ";" ++ taxon) = cur
    by_cases hmem : cur ∈ seen
    · rw [if_pos hmem]
      exact ih (k + 1) cur cur (ab ++ [cur]) seen (Or.inr hmem)
    · rw [if_neg hmem]
      exact ⟨hp, ih (k + 1) cur cur (ab ++ [cur]) (seen ++ [cur])
        (Or.inr (by simp))⟩

theorem processTaxonomy_parentsOk (ranks seen : List String) (t : String) :
    parentsOk seen (processTaxonomy ranks seen t).rows := by
  simp only [processTaxonomy]
  split
  · simp [parentsOk]
  · split
    · simp [parentsOk]
    · exact writeTaxa_parentsOk ranks (names t) 0 "root" "" ["root"] seen
        (Or.inl rfl)

theorem parentsOk_append {ids : List String} {r1 r2 : List TaxRow}
    (h1 : parentsOk ids r1)
    (h2 : parentsOk (ids ++ r1.map TaxRow.tax_id) r2) :
    parentsOk ids (r1 ++ r2) := by
  induction r1 generalizing ids with
  | nil => simpa using h2
  | cons row rest ih =>
    refine ⟨h1.1, ih h1.2 ?_⟩
    have : ids ++ [row.tax_id] ++ rest.map TaxRow.tax_id =
        ids ++ (row :: rest).map TaxRow.tax_id := by simp
    rw [this]
    exact h2

theorem create_taxonomy_rows_parentsOk (ranks : List String) :
    ∀ (ts seen : List String),
      parentsOk seen (create_taxonomy_rows ranks ts seen).rows := by
  intro ts
  induction ts with
  | nil => intro seen; simp [create_taxonomy_rows, parentsOk]
  | cons t ts ih =>
    intro seen
    simp only [create_taxonomy_rows]
    refine parentsOk_append (processTaxonomy_parentsOk ranks seen t) ?_
    rw [← processTaxonomy_seen]
    exact ih _

theorem parentsOk_index {ids : List String} {rows : List TaxRow}
    (h : parentsOk ids rows) :
    ∀ (i : Nat) (hi : i < rows.length),
      (rows.get ⟨i, hi⟩).parent_id = "root" ∨
        (rows.get ⟨i, hi⟩).parent_id ∈
          ids ++ ((rows.take i).map TaxRow.tax_id) := by
  induction rows generalizing ids with
  | nil => intro i hi; simp at hi
  | cons row rest ih =>
    intro i hi
    cases i with
    | zero => simpa using h.1
    | succ j =>
      have hj : j < rest.length := by simpa using hi
      have := ih h.2 j hj
      simpa [List.append_assoc] using this

/-- C1: each row written by `create_taxonomy_file` after the root row
has a `parent_id` equal either to the literal string `root` or to the
`tax_id` of some row written earlier in the same output. -/
theorem create_taxonomy_file_parent_written_earlier
    (taxonomies ranks : List String) (i : Nat) (row : TaxRow)
    (h : ((create_taxonomy_file taxonomies ranks).2.rows)[i]? = some row) :
    row.parent_id = "root" ∨
      ∃ j, j < i ∧ ∃ rowj,
        ((create_taxonomy_file taxonomies ranks).2.rows)[j]? = some rowj ∧
          rowj.tax_id = row.parent_id := by
  simp only [create_taxonomy_file] at h ⊢
  set rows := (create_taxonomy_rows ranks taxonomies []).rows with hrows
  have hi : i < rows.length := by
    by_contra hge
    rw [List.getElem?_eq_none (by omega)] at h
    exact Option.noConfusion h
  have hrow : rows.get ⟨i, hi⟩ = row := by
    rw [List.getElem?_eq_getElem hi] at h
    exact Option.some.inj h
  have hok := parentsOk_index
    (create_taxonomy_rows_parentsOk ranks taxonomies []) i hi
  rw [hrow] at hok
  rcases hok with hroot | hmem
  · exact Or.inl hroot
  · right
    simp only [List.nil_append] at hmem
    rcases List.mem_map.mp hmem with ⟨rowj, hrj, hid⟩
    rcases List.getElem_of_mem hrj with ⟨j, hjlen, hget⟩
    have hjlt : j < i := by
      have := hjlen
      simp [List.length_take] at this
      omega
    have hjr : j < rows.length := by omega
    refine ⟨j, hjlt, rowj, ?_, hid⟩
    rw [List.getElem?_eq_getElem hjr]
    rw [List.getElem_take] at hget
    rw [hget]

theorem create_taxonomy_file_parent_written_earlier_witness :
    ((create_taxonomy_file ["root;A;B"] ["kingdom", "phylum"]).2.rows)[1]? =
        some ⟨"root;A;B", "root;A", "phylum", "B",
          ["root", "root;A", "root;A;B"]⟩ ∧
      (TaxRow.parent_id ⟨"root;A;B", "root;A", "phylum", "B",
          ["root", "root;A", "root;A;B"]⟩ = "root" ∨
        ∃ j, j < 1 ∧ ∃ rowj,
          ((create_taxonomy_file ["root;A;B"] ["kingdom", "phylum"]).2.rows)[j]? =
              some rowj ∧
            rowj.tax_id = TaxRow.parent_id ⟨"root;A;B", "root;A", "phylum", "B",
              ["root", "root;A", "root;A;B"]⟩) :=
  ⟨by decide,
   create_taxonomy_file_parent_written_earlier ["root;A;B"] ["kingdom", "phylum"]
     1 _ (by decide)⟩

/-! ## C2: tax_ids are pairwise distinct -/

theorem writeTaxa_seen_nodup (ranks : List String) :
    ∀ (splits : List String) (k : Nat) (p c : String) (ab seen : List String),
      seen.Nodup → (writeTaxa ranks splits k p c ab seen).1.Nodup := by
  intro splits
  induction splits with
  | nil => intro k p c ab seen hs; simpa [writeTaxa] using hs
  | cons taxon rest ih =>
    intro k p c ab seen hs
    simp only [writeTaxa]
    generalize (if k = 0 then "root;" ++ taxon else c ++ ";" ++ taxon) = cur
    by_cases hmem : cur ∈ seen
    · rw [if_pos hmem]
      exact ih (k + 1) cur cur (ab ++ [cur]) seen hs
    · rw [if_neg hmem]
      refine ih (k + 1) cur cur (ab ++ [cur]) (seen ++ [cur]) ?_
      rw [List.nodup_append]
      refine ⟨hs, List.nodup_singleton _, ?_⟩
      intro a ha hacur
      rw [List.mem_singleton] at hacur
      exact hmem (hacur ▸ ha)

theorem processTaxonomy_seen_nodup (ranks seen : List String) (t : String)
    (hs : seen.Nodup) : (processTaxonomy ranks seen t).seen.Nodup := by
  simp only [processTaxonomy]
  split
  · simpa
  · split
    · simpa
    · exact writeTaxa_seen_nodup ranks (names t) 0 "root" "" ["root"] seen hs

theorem create_taxonomy_rows_seen_nodup (ranks : List String) :
    ∀ (ts seen : List String), seen.Nodup →
      (create_taxonomy_rows ranks ts seen).seen.Nodup := by
  intro ts
  induction ts with
  | nil => intro seen hs; simpa [create_taxonomy_rows] using hs
  | cons t ts ih =>
    intro seen hs
    simp only [create_taxonomy_rows]
    exact ih _ (processTaxonomy_seen_nodup ranks seen t hs)

/-- C2: no two rows written by `create_taxonomy_file` share the same
`tax_id`; each distinct lineage path is emitted as a row exactly
once. -/
theorem create_taxonomy_file_tax_ids_nodup (taxonomies ranks : List String) :
    (((create_taxonomy_file taxonomies ranks).2.rows).map TaxRow.tax_id).Nodup := by
  simp only [create_taxonomy_file]
  have hseen := create_taxonomy_rows_seen ranks taxonomies []
  simp only [List.nil_append] at hseen
  rw [← hseen]
  exact create_taxonomy_rows_seen_nodup ranks taxonomies [] List.nodup_nil

/-! ## C5: every emitted line is rectangular -/

theorem splitSep_ne_nil (c : Char) (l : List Char) : splitSep c l ≠ [] := by
  cases l with
  | nil => simp [splitSep]
  | cons a l =>
    simp only [splitSep]
    split <;> simp

theorem length_splitSep (c : Char) :
    ∀ l : List Char, (splitSep c l).length = l.count c + 1 := by
  intro l
  induction l with
  | nil => simp [splitSep]
  | cons a l ih =>
    simp only [splitSep]
    by_cases hac : a = c
    · rw [if_pos hac]
      have hcnt : (a :: l).count c = l.count c + 1 := by
        simp [List.count_cons, hac]
      rw [List.length_cons, hcnt, ih]
    · rw [if_neg hac]
      have hpos : 0 < (splitSep c l).length :=
        List.length_pos.mpr (splitSep_ne_nil c l)
      have hcnt : (a :: l).count c = l.count c := by
        simp [List.count_cons, hac]
      rw [List.length_cons, List.length_tail, hcnt, ← ih]
      omega

theorem fieldCount_eq (s : String) : fieldCount s = s.data.count ',' + 1 :=
  length_splitSep ',' s.data

/-- A CSV-safe field: contains neither a comma nor a newline. -/
def goodStr (s : String) : Prop := ',' ∉ s.data ∧ '\n' ∉ s.data

instance (s : String) : Decidable (goodStr s) := by
  unfold goodStr; infer_instance

theorem goodStr_append {a b : String} (ha : goodStr a) (hb : goodStr b) :
    goodStr (a ++ b) := by
  constructor
  · rw [String.data_append]
    intro hmem
    rcases List.mem_append.mp hmem with h | h
    exacts [ha.1 h, hb.1 h]
  · rw [String.data_append]
    intro hmem
    rcases List.mem_append.mp hmem with h | h
    exacts [ha.2 h, hb.2 h]

theorem count_comma_joinSep :
    ∀ parts : List String, (∀ p ∈ parts, ',' ∉ p.data) →
      ((joinSep "," parts).data.count ',') = parts.length - 1 := by
  intro parts
  induction parts with
  | nil => intro _; simp [joinSep]
  | cons x xs ih =>
    intro h
    cases xs with
    | nil =>
      simp only [joinSep]
      have := h x (by simp)
      simp [List.count_eq_zero.mpr this]
    | cons y ys =>
      have hx := h x (by simp)
      have ihr := ih (fun p hp => h p (by simp [hp]))
      simp only [joinSep] at ihr ⊢
      rw [String.data_append, String.data_append, List.count_append,
        List.count_append, List.count_eq_zero.mpr hx, ihr]
      simp
      omega

theorem nl_not_mem_joinSep :
    ∀ parts : List String, (∀ p ∈ parts, '\n' ∉ p.data) →
      '\n' ∉ (joinSep "," parts).data := by
  intro parts
  induction parts with
  | nil => intro _; simp [joinSep]
  | cons x xs ih =>
    intro h
    cases xs with
    | nil =>
      simpa [joinSep] using h x (by simp)
    | cons y ys =>
      have hx := h x (by simp)
      have ihr := ih (fun p hp => h p (by simp [hp]))
      simp only [joinSep] at ihr ⊢
      rw [String.data_append, String.data_append]
      intro hmem
      rcases List.mem_append.mp hmem with hm | hm
      · rcases List.mem_append.mp hm with hm2 | hm2
        · exact hx hm2
        · simp at hm2
      · exact ihr hm

theorem data_commaPad (n : Nat) : (commaPad n).data = List.replicate n ',' := rfl

theorem count_commaPad (n : Nat) : (commaPad n).data.count ',' = n := by
  rw [data_commaPad]
  simp

theorem nl_not_mem_commaPad (n : Nat) : '\n' ∉ (commaPad n).data := by
  rw [data_commaPad]
  simp [List.mem_replicate]

theorem goodStr_getD :
    ∀ (l : List String), (∀ x ∈ l, goodStr x) → ∀ i, goodStr (l.getD i "") := by
  intro l
  induction l with
  | nil => intro _ i; simp only [List.getD_nil]; decide
  | cons x xs ih =>
    intro h i
    cases i with
    | zero => simpa [List.getD_cons_zero] using h x (by simp)
    | succ j =>
      rw [List.getD_cons_succ]
      exact ih (fun y hy => h y (by simp [hy])) j

/-- All fields of a data row are CSV-safe and the row is narrow enough
to be padded to the column count. -/
def rowOk (numCols : Nat) (r : TaxRow) : Prop :=
  goodStr r.tax_id ∧ goodStr r.parent_id ∧ goodStr r.rank ∧
    goodStr r.tax_name ∧ (∀ a ∈ r.aboves, goodStr a) ∧
    4 + r.aboves.length ≤ numCols

theorem renderRow_fields {numCols : Nat} {r : TaxRow} (h : rowOk numCols r) :
    fieldCount (renderRow numCols r) = numCols ∧
      '\n' ∉ (renderRow numCols r).data := by
  obtain ⟨h1, h2, h3, h4, h5, h6⟩ := h
  have hcommas : ∀ p ∈ [r.tax_id, r.parent_id, r.rank, r.tax_name] ++ r.aboves,
      ',' ∉ p.data := by
    intro p hp
    rcases List.mem_append.mp hp with hm | hm
    · simp only [List.mem_cons, List.not_mem_nil, or_false] at hm
      rcases hm with rfl | rfl | rfl | rfl
      exacts [h1.1, h2.1, h3.1, h4.1]
    · exact (h5 p hm).1
  have hnls : ∀ p ∈ [r.tax_id, r.parent_id, r.rank, r.tax_name] ++ r.aboves,
      '\n' ∉ p.data := by
    intro p hp
    rcases List.mem_append.mp hp with hm | hm
    · simp only [List.mem_cons, List.not_mem_nil, or_false] at hm
      rcases hm with rfl | rfl | rfl | rfl
      exacts [h1.2, h2.2, h3.2, h4.2]
    · exact (h5 p hm).2
  have hlen : ([r.tax_id, r.parent_id, r.rank, r.tax_name] ++ r.aboves).length =
      4 + r.aboves.length := by simp; omega
  constructor
  · rw [fieldCount_eq]
    simp only [renderRow]
    rw [String.data_append, List.count_append, count_commaPad,
      count_comma_joinSep _ hcommas, hlen]
    omega
  · simp only [renderRow]
    rw [String.data_append]
    intro hmem
    rcases List.mem_append.mp hmem with hm | hm
    · exact nl_not_mem_joinSep _ hnls hm
    · exact nl_not_mem_commaPad _ hm

theorem writeTaxa_rowsOk (ranks : List String)
    (hrk : ∀ rk ∈ ranks, goodStr rk) :
    ∀ (splits : List String) (k : Nat) (p c : String) (ab seen : List String),
      goodStr p → goodStr c → (∀ a ∈ ab, goodStr a) →
      (∀ tok ∈ splits, goodStr tok) →
      ab.length = k + 1 →
      k + splits.length ≤ ranks.length →
      ∀ r ∈ (writeTaxa ranks splits k p c ab seen).2,
        rowOk (5 + ranks.length) r := by
  intro splits
  induction splits with
  | nil => intro k p c ab seen _ _ _ _ _ _ r hr; simp [writeTaxa] at hr
  | cons taxon rest ih =>
    intro k p c ab seen hp hc hab hsp hablen hbound
    have htok : goodStr taxon := hsp taxon (by simp)
    have hrest : ∀ tok ∈ rest, goodStr tok := fun tok h => hsp tok (by simp [h])
    simp only [writeTaxa]
    have hcur : goodStr (if k = 0 then "root;" ++ taxon else c ++ ";" ++ taxon) := by
      split
      · exact goodStr_append (by decide) htok
      · exact goodStr_append (goodStr_append hc (by decide)) htok
    generalize hg : (if k = 0 then "root;" ++ taxon else c ++ ";" ++ taxon) = cur
      at hcur ⊢
    have hab2 : ∀ a ∈ ab ++ [cur], goodStr a := by
      intro a ha
      rcases List.mem_append.mp ha with hm | hm
      · exact hab a hm
      · rw [List.mem_singleton] at hm
        exact hm ▸ hcur
    have hablen2 : (ab ++ [cur]).length = (k + 1) + 1 := by
      simp [hablen]
    have hbound2 : (k + 1) + rest.length ≤ ranks.length := by
      simp only [List.length_cons] at hbound
      omega
    by_cases hmem : cur ∈ seen
    · rw [if_pos hmem]
      exact ih (k + 1) cur cur (ab ++ [cur]) seen hcur hcur hab2 hrest
        hablen2 hbound2
    · rw [if_neg hmem]
      intro r hr
      rcases List.mem_cons.mp hr with hr0 | hrr
      · subst hr0
        refine ⟨hcur, hp, goodStr_getD ranks hrk k, htok, hab2, ?_⟩
        simp only [List.length_append, List.length_cons] at hablen2 hbound ⊢
        omega
      · exact ih (k + 1) cur cur (ab ++ [cur]) (seen ++ [cur]) hcur hcur hab2
          hrest hablen2 hbound2 r hrr

theorem processTaxonomy_rowsOk (ranks seen : List String) (t : String)
    (hrk : ∀ rk ∈ ranks, goodStr rk) (ht : ∀ tok ∈ names t, goodStr tok) :
    ∀ r ∈ (processTaxonomy ranks seen t).rows, rowOk (5 + ranks.length) r := by
  simp only [processTaxonomy]
  split
  · simp
  · split
    · simp
    · next hlen =>
      refine writeTaxa_rowsOk ranks hrk (names t) 0 "root" "" ["root"] seen
        (by decide) (by decide) ?_ ht (by simp) (by omega)
      intro a ha
      rw [List.mem_singleton] at ha
      subst ha
      decide

theorem create_taxonomy_rows_rowsOk (ranks : List String)
    (hrk : ∀ rk ∈ ranks, goodStr rk) :
    ∀ (ts seen : List String), (∀ t ∈ ts, ∀ tok ∈ names t, goodStr tok) →
      ∀ r ∈ (create_taxonomy_rows ranks ts seen).rows,
        rowOk (5 + ranks.length) r := by
  intro ts
  induction ts with
  | nil => intro seen _ r hr; simp [create_taxonomy_rows] at hr
  | cons t ts ih =>
    intro seen hT r hr
    simp only [create_taxonomy_rows] at hr
    rcases List.mem_append.mp hr with hm | hm
    · exact processTaxonomy_rowsOk ranks seen t hrk (hT t (by simp)) r hm
    · exact ih _ (fun u hu => hT u (by simp [hu])) r hm

/-- C5: every line written by `create_taxonomy_file` — header, root row
and data rows — consists of exactly `5 + ranks.length` comma-separated
fields (and stays one physical line), provided the rank tokens and rank
labels contain no comma or newline characters. -/
theorem create_taxonomy_file_rectangular (taxonomies ranks : List String)
    (hT : ∀ t ∈ taxonomies, ∀ tok ∈ names t, goodStr tok)
    (hR : ∀ rk ∈ ranks, goodStr rk) :
    ∀ line ∈ (create_taxonomy_file taxonomies ranks).1,
      fieldCount line = 5 + ranks.length ∧ '\n' ∉ line.data := by
  intro line hline
  simp only [create_taxonomy_file, List.mem_cons] at hline
  rcases hline with h | h | h
  · subst h
    have hfields : ∀ p ∈ ["tax_id", "parent_id", "rank", "tax_name", "root"] ++
        ranks, goodStr p := by
      intro p hp
      rcases List.mem_append.mp hp with hm | hm
      · simp only [List.mem_cons, List.not_mem_nil, or_false] at hm
        rcases hm with rfl | rfl | rfl | rfl | rfl <;> decide
      · exact hR p hm
    constructor
    · rw [fieldCount_eq]
      simp only [headerLine]
      rw [count_comma_joinSep _ (fun p hp => (hfields p hp).1)]
      simp
      omega
    · simp only [headerLine]
      exact nl_not_mem_joinSep _ (fun p hp => (hfields p hp).2)
  · subst h
    have hroots : ∀ p ∈ ["root", "root", "root", "root"], goodStr p := by decide
    constructor
    · rw [fieldCount_eq]
      simp only [rootLine]
      rw [String.data_append, List.count_append, count_commaPad,
        count_comma_joinSep _ (fun p hp => (hroots p hp).1)]
      simp only [List.length_cons, List.length_nil]
      omega
    · simp only [rootLine]
      rw [String.data_append]
      intro hmem
      rcases List.mem_append.mp hmem with hm | hm
      · exact nl_not_mem_joinSep _ (fun p hp => (hroots p hp).2) hm
      · exact nl_not_mem_commaPad _ hm
  · rcases List.mem_map.mp h with ⟨r, hr, hrl⟩
    have hok := create_taxonomy_rows_rowsOk ranks hR taxonomies [] hT r hr
    have := renderRow_fields hok
    rw [hrl] at this
    exact this

theorem create_taxonomy_file_rectangular_witness :
    (∀ t ∈ ["root;A;B", "root;A;C"], ∀ tok ∈ names t, goodStr tok) ∧
    (∀ rk ∈ ["kingdom", "phylum"], goodStr rk) ∧
    ∀ line ∈ (create_taxonomy_file ["root;A;B", "root;A;C"]
        ["kingdom", "phylum"]).1,
      fieldCount line = 5 + (["kingdom", "phylum"] : List String).length ∧
        '\n' ∉ line.data :=
  ⟨by decide, by decide,
   create_taxonomy_file_rectangular ["root;A;B", "root;A;C"]
     ["kingdom", "phylum"] (by decide) (by decide)⟩

/-! ## C6: seq_info names and FASTA headers match -/

theorem mergeSeqs_names_eq (db : String) (taxRes : Option String) :
    ∀ (seqs : List (String × String)) (st : MergeState),
      st.seqinfo.map Prod.fst = st.fasta.map Prod.fst →
      (mergeSeqs db taxRes st seqs).seqinfo.map Prod.fst =
        (mergeSeqs db taxRes st seqs).fasta.map Prod.fst := by
  intro seqs
  induction seqs with
  | nil => intro st h; simpa [mergeSeqs] using h
  | cons sq rest ih =>
    intro st h
    simp only [mergeSeqs]
    cases taxRes with
    | none => exact ih st h
    | some tid =>
      refine ih _ ?_
      simp [h]

theorem processProteome_names_eq (aceMap : List (String × String))
    (taxIds : List String) (stoFiles : List (String × List (String × String)))
    (st : MergeState) (proteome : String)
    (h : st.seqinfo.map Prod.fst = st.fasta.map Prod.fst) :
    (processProteome aceMap taxIds stoFiles st proteome).seqinfo.map Prod.fst =
      (processProteome aceMap taxIds stoFiles st proteome).fasta.map Prod.fst := by
  simp only [processProteome]
  cases hlk : stoFiles.lookup (basename proteome ++ ".sto") with
  | none => exact h
  | some seqs => exact mergeSeqs_names_eq _ _ seqs st h

theorem mergeAllFrom_names_eq (aceMap : List (String × String))
    (taxIds : List String) (stoFiles : List (String × List (String × String))) :
    ∀ (ps : List String) (st : MergeState),
      st.seqinfo.map Prod.fst = st.fasta.map Prod.fst →
      (mergeAllFrom aceMap taxIds stoFiles st ps).seqinfo.map Prod.fst =
        (mergeAllFrom aceMap taxIds stoFiles st ps).fasta.map Prod.fst := by
  intro ps
  induction ps with
  | nil => intro st h; simpa [mergeAllFrom] using h
  | cons p rest ih =>
    intro st h
    simp only [mergeAllFrom]
    exact ih _ (processProteome_names_eq aceMap taxIds stoFiles st p h)

/-- C6: after the merge stage, the set of `seqname` values written to
`seq_info.csv` equals the set of sequence names written as FASTA headers
(with leading `>`) in `aligned.fasta`. -/
theorem seqinfo_names_iff_fasta_headers (aceMap : List (String × String))
    (taxIds : List String) (stoFiles : List (String × List (String × String)))
    (proteomes : List String) (s : String) :
    s ∈ seqinfoNames (mergeAll aceMap taxIds stoFiles proteomes) ↔
      (">" ++ s) ∈ fastaHeaders (mergeAll aceMap taxIds stoFiles proteomes) := by
  have heq := mergeAllFrom_names_eq aceMap taxIds stoFiles proteomes
    initMergeState rfl
  unfold seqinfoNames fastaHeaders mergeAll
  rw [heq]
  constructor
  · intro hs
    rcases List.mem_map.mp hs with ⟨r, hr, hid⟩
    exact List.mem_map.mpr ⟨r, hr, by rw [hid]⟩
  · intro hs
    rcases List.mem_map.mp hs with ⟨r, hr, hid⟩
    have hdat := congrArg String.data hid
    simp only [String.data_append] at hdat
    have : r.1 = s := String.ext (List.append_cancel_left hdat)
    exact List.mem_map.mpr ⟨r, hr, this⟩

/-! ## C7: zero merged sequences is fatal, before the tree stage -/

/-- C7: if the merge loop wrote zero sequences (in particular when no
proteome has an alignment file), the pipeline raises the fatal
"no matching sequences" exception and the tree stage is never
reached. -/
theorem merge_zero_sequences_fatal (aceMap : List (String × String))
    (taxIds : List String) (stoFiles : List (String × List (String × String)))
    (proteomes : List String)
    (h : (mergeAll aceMap taxIds stoFiles proteomes).seqNum = 0) :
    mergeStage aceMap taxIds stoFiles proteomes =
        Except.error "No matching sequences detected, cannot create tree" ∧
      treeStageReached aceMap taxIds stoFiles proteomes = false := by
  have hstage : mergeStage aceMap taxIds stoFiles proteomes =
      Except.error "No matching sequences detected, cannot create tree" := by
    simp only [mergeStage]
    rw [if_pos h]
  refine ⟨hstage, ?_⟩
  simp only [treeStageReached]
  rw [hstage]

theorem merge_zero_sequences_fatal_witness :
    (mergeAll [] [] [] ["A1.faa"]).seqNum = 0 ∧
      (mergeStage [] [] [] ["A1.faa"] =
          Except.error "No matching sequences detected, cannot create tree" ∧
        treeStageReached [] [] [] ["A1.faa"] = false) :=
  ⟨by decide, merge_zero_sequences_fatal [] [] [] ["A1.faa"] (by decide)⟩

/-! ## C8: sequences with unresolved taxonomy are silently dropped -/

theorem mergeSeqs_none_id (db : String) :
    ∀ (seqs : List (String × String)) (st : MergeState),
      mergeSeqs db none st seqs = st := by
  intro seqs
  induction seqs with
  | nil => intro st; simp [mergeSeqs]
  | cons sq rest ih =>
    intro st
    simp only [mergeSeqs]
    exact ih st

/-- C8: a proteome whose genome ID is absent from the genome-to-taxonomy
map, or whose taxonomy string is absent from the taxonomy-table
path-to-ID map, contributes nothing to `aligned.fasta` or
`seq_info.csv`, emits no warning, advances no counter, and does not
abort: the merge state is returned unchanged. -/
theorem merge_drops_unresolved_taxonomy (aceMap : List (String × String))
    (taxIds : List String) (stoFiles : List (String × List (String × String)))
    (st : MergeState) (proteome : String)
    (h : aceMap.lookup (dbIdOf proteome) = none ∨
      ∃ tax, aceMap.lookup (dbIdOf proteome) = some tax ∧
        lookupTaxId taxIds ("root;" ++ removeSpaces tax) = none) :
    processProteome aceMap taxIds stoFiles st proteome = st := by
  have hres : resolveTax aceMap taxIds (dbIdOf proteome) = none := by
    unfold resolveTax
    rcases h with h | ⟨tax, h1, h2⟩
    · rw [h]
      rfl
    · rw [h1]
      simpa using h2
  simp only [processProteome]
  cases hlk : stoFiles.lookup (basename proteome ++ ".sto") with
  | none => rfl
  | some seqs =>
    rw [hres]
    exact mergeSeqs_none_id _ seqs st

theorem merge_drops_unresolved_taxonomy_witness :
    (([] : List (String × String)).lookup (dbIdOf "A1.faa") = none ∨
      ∃ tax, ([] : List (String × String)).lookup (dbIdOf "A1.faa") = some tax ∧
        lookupTaxId [] ("root;" ++ removeSpaces tax) = none) ∧
      processProteome [] [] [("A1.faa.sto", [("s1", "MK")])] initMergeState
        "A1.faa" = initMergeState :=
  ⟨Or.inl (by decide),
   merge_drops_unresolved_taxonomy [] [] [("A1.faa.sto", [("s1", "MK")])]
     initMergeState "A1.faa" (Or.inl (by decide))⟩

/-! ## Decimal representation facts

The merged sequence names embed the counter via Python's decimal
formatting, modelled by `toString : Nat → String`.  We need that decimal
strings never contain an underscore and that they determine the
number. -/

theorem digitChar_ge_sixteen (n : Nat) (h : 16 ≤ n) : Nat.digitChar n = '*' := by
  unfold Nat.digitChar
  repeat rw [if_neg (by omega)]

theorem digitChar_ne_underscore (n : Nat) : Nat.digitChar n ≠ '_' := by
  by_cases h : n < 16
  · have hf : ∀ m : Fin 16, Nat.digitChar m.val ≠ '_' := by decide
    exact hf ⟨n, h⟩
  · rw [digitChar_ge_sixteen n (by omega)]
    decide

theorem toDigitsCore_ne_underscore :
    ∀ (f n : Nat) (ds : List Char), (∀ c ∈ ds, c ≠ '_') →
      ∀ c ∈ Nat.toDigitsCore 10 f n ds, c ≠ '_' := by
  intro f
  induction f with
  | zero => intro n ds h c hc; exact h c hc
  | succ f ih =>
    intro n ds h c hc
    simp only [Nat.toDigitsCore] at hc
    have hd : ∀ x ∈ Nat.digitChar (n % 10) :: ds, x ≠ '_' := by
      intro x hx
      rcases List.mem_cons.mp hx with rfl | hx
      · exact digitChar_ne_underscore _
      · exact h x hx
    split at hc
    · exact hd c hc
    · exact ih (n / 10) _ hd c hc

theorem toString_nat_data (n : Nat) :
    (toString n).data = Nat.toDigitsCore 10 (n + 1) n [] := rfl

theorem toString_nat_ne_underscore (n : Nat) : '_' ∉ (toString n).data := by
  intro hmem
  rw [toString_nat_data] at hmem
  exact toDigitsCore_ne_underscore (n + 1) n [] (by simp) '_' hmem rfl

theorem toDigitsCore_append :
    ∀ (f n : Nat) (ds : List Char), n < f →
      Nat.toDigitsCore 10 f n ds = Nat.toDigitsCore 10 f n [] ++ ds := by
  intro f
  induction f with
  | zero => intro n ds h; exact absurd h (Nat.not_lt_zero n)
  | succ f ih =>
    intro n ds h
    simp only [Nat.toDigitsCore]
    by_cases h0 : n / 10 = 0
    · rw [if_pos h0, if_pos h0]
      simp
    · rw [if_neg h0, if_neg h0]
      have hn : 0 < n := by
        rcases Nat.eq_zero_or_pos n with rfl | hp
        · simp at h0
        · exact hp
      have hlt : n / 10 < f := by
        have hdlt : n / 10 < n := Nat.div_lt_self hn (by norm_num)
        omega
      rw [ih (n / 10) (Nat.digitChar (n % 10) :: ds) hlt,
        ih (n / 10) [Nat.digitChar (n % 10)] hlt]
      simp

theorem toDigitsCore_fuel :
    ∀ (n f1 f2 : Nat), n < f1 → n < f2 →
      Nat.toDigitsCore 10 f1 n [] = Nat.toDigitsCore 10 f2 n [] := by
  intro n
  induction n using Nat.strong_induction_on with
  | _ n ih =>
    intro f1 f2 h1 h2
    cases f1 with
    | zero => exact absurd h1 (Nat.not_lt_zero n)
    | succ f1 =>
      cases f2 with
      | zero => exact absurd h2 (Nat.not_lt_zero n)
      | succ f2 =>
        simp only [Nat.toDigitsCore]
        by_cases h0 : n / 10 = 0
        · rw [if_pos h0, if_pos h0]
        · rw [if_neg h0, if_neg h0]
          have hn : 0 < n := by
            rcases Nat.eq_zero_or_pos n with rfl | hp
            · simp at h0
            · exact hp
          have hd : n / 10 < n := Nat.div_lt_self hn (by norm_num)
          rw [toDigitsCore_append f1 (n / 10) [Nat.digitChar (n % 10)]
              (by omega),
            toDigitsCore_append f2 (n / 10) [Nat.digitChar (n % 10)]
              (by omega),
            ih (n / 10) hd f1 f2 (by omega) (by omega)]

/-- The numeric value of a decimal digit character. -/
def digitVal (c : Char) : Nat := c.toNat - 48

/-- The number denoted by a list of decimal digit characters. -/
def valOfDigits (l : List Char) : Nat :=
  l.foldl (fun a c => 10 * a + digitVal c) 0

theorem valOfDigits_append_singleton (xs : List Char) (c : Char) :
    valOfDigits (xs ++ [c]) = 10 * valOfDigits xs + digitVal c := by
  simp [valOfDigits, List.foldl_append]

theorem digitVal_digitChar :
    ∀ m : Fin 10, digitVal (Nat.digitChar m.val) = m.val := by decide

theorem valOfDigits_toDigits :
    ∀ n : Nat, valOfDigits (Nat.toDigitsCore 10 (n + 1) n []) = n := by
  intro n
  induction n using Nat.strong_induction_on with
  | _ n ih =>
    simp only [Nat.toDigitsCore]
    by_cases h0 : n / 10 = 0
    · rw [if_pos h0]
      have hlt : n < 10 := by omega
      have hv := digitVal_digitChar ⟨n % 10, Nat.mod_lt n (by norm_num)⟩
      simp only at hv
      simp [valOfDigits, hv]
      omega
    · rw [if_neg h0]
      have hn : 0 < n := by
        rcases Nat.eq_zero_or_pos n with rfl | hp
        · simp at h0
        · exact hp
      have hd : n / 10 < n := Nat.div_lt_self hn (by norm_num)
      rw [toDigitsCore_append n (n / 10) [Nat.digitChar (n % 10)] (by omega),
        toDigitsCore_fuel (n / 10) n (n / 10 + 1) (by omega) (by omega),
        valOfDigits_append_singleton, ih (n / 10) hd]
      have hv := digitVal_digitChar ⟨n % 10, Nat.mod_lt n (by norm_num)⟩
      simp only at hv
      rw [hv]
      omega

theorem toString_nat_injective {m n : Nat} (h : toString m = toString n) :
    m = n := by
  have hd : Nat.toDigitsCore 10 (m + 1) m [] =
      Nat.toDigitsCore 10 (n + 1) n [] := by
    rw [← toString_nat_data, ← toString_nat_data, h]
  have := congrArg valOfDigits hd
  rwa [valOfDigits_toDigits, valOfDigits_toDigits] at this

/-! ## Suffix extraction for merged sequence names -/

/-- The part of a string after its last underscore (the whole string
when it has no underscore). -/
def nameSuffix (s : String) : String :=
  String.mk ((s.data.reverse.takeWhile (fun c => c ≠ '_')).reverse)

theorem takeWhile_append_underscore :
    ∀ (l1 l2 : List Char), (∀ x ∈ l1, x ≠ '_') →
      (l1 ++ '_' :: l2).takeWhile (fun c => decide (c ≠ '_')) = l1 := by
  intro l1
  induction l1 with
  | nil =>
    intro l2 _
    simp [List.takeWhile]
  | cons a l ih =>
    intro l2 h
    have ha : a ≠ '_' := h a (by simp)
    have ih2 := ih l2 (fun x hx => h x (by simp [hx]))
    simp only [List.cons_append, List.takeWhile_cons, decide_not] at ih2 ⊢
    simp [ha, ih2]

theorem nameSuffix_append {db d : String} (hd : ∀ c ∈ d.data, c ≠ '_') :
    nameSuffix (db ++ "_" ++ d) = d := by
  unfold nameSuffix
  have hdata : (db ++ "_" ++ d).data = db.data ++ '_' :: d.data := by
    rw [String.data_append, String.data_append]
    simp
  rw [hdata]
  have hrev : (db.data ++ '_' :: d.data).reverse =
      d.data.reverse ++ '_' :: db.data.reverse := by
    simp
  rw [hrev, takeWhile_append_underscore d.data.reverse db.data.reverse
    (fun x hx => hd x (List.mem_reverse.mp hx))]
  rw [List.reverse_reverse]

theorem merged_name_inj {a b : String} {m n : Nat}
    (h : a ++ "_" ++ toString m = b ++ "_" ++ toString n) : m = n := by
  have ha : nameSuffix (a ++ "_" ++ toString m) = toString m :=
    nameSuffix_append (fun c hc => by
      intro h2
      subst h2
      exact toString_nat_ne_underscore m hc)
  have hb : nameSuffix (b ++ "_" ++ toString n) = toString n :=
    nameSuffix_append (fun c hc => by
      intro h2
      subst h2
      exact toString_nat_ne_underscore n hc)
  apply toString_nat_injective
  rw [← ha, ← hb, h]

/-! ## C9 and C10: counter bookkeeping of the merge loop -/

/-- Invariant of the merge loop: the output row counts equal the
counter, and the `i`-th FASTA record (0-based) is named with the genome
ID of some input proteome and counter suffix `i + 1`. -/
def mergeInv (proteomes : List String) (st : MergeState) : Prop :=
  st.seqinfo.length = st.seqNum ∧ st.fasta.length = st.seqNum ∧
    ∀ (i : Nat) (hi : i < st.fasta.length), ∃ p ∈ proteomes,
      (st.fasta.get ⟨i, hi⟩).1 = dbIdOf p ++ "_" ++ toString (i + 1)

theorem mergeSeqs_inv {proteomes : List String} {p : String}
    (hp : p ∈ proteomes) (taxRes : Option String) :
    ∀ (seqs : List (String × String)) (st : MergeState),
      mergeInv proteomes st →
      mergeInv proteomes (mergeSeqs (dbIdOf p) taxRes st seqs) := by
  intro seqs
  induction seqs with
  | nil => intro st h; simpa [mergeSeqs] using h
  | cons sq rest ih =>
    intro st h
    simp only [mergeSeqs]
    cases taxRes with
    | none => exact ih st h
    | some tid =>
      refine ih _ ?_
      obtain ⟨h1, h2, h3⟩ := h
      refine ⟨by simp [h1], by simp [h2], ?_⟩
      intro i hi
      simp only [List.length_append, List.length_cons, List.length_nil] at hi
      by_cases hlt : i < st.fasta.length
      · obtain ⟨q, hq, hname⟩ := h3 i hlt
        refine ⟨q, hq, ?_⟩
        simp only [List.get_eq_getElem] at hname ⊢
        rw [List.getElem_append_left hlt]
        exact hname
      · have hieq : i = st.fasta.length := by omega
        refine ⟨p, hp, ?_⟩
        simp only [List.get_eq_getElem]
        rw [List.getElem_concat_length _ _ _ hieq]
        rw [hieq, h2]

theorem processProteome_inv {proteomes : List String}
    (aceMap : List (String × String)) (taxIds : List String)
    (stoFiles : List (String × List (String × String)))
    (st : MergeState) {p : String} (hp : p ∈ proteomes)
    (h : mergeInv proteomes st) :
    mergeInv proteomes (processProteome aceMap taxIds stoFiles st p) := by
  simp only [processProteome]
  cases hlk : stoFiles.lookup (basename p ++ ".sto") with
  | none => exact h
  | some seqs => exact mergeSeqs_inv hp _ seqs st h

theorem mergeAllFrom_inv {proteomes : List String}
    (aceMap : List (String × String)) (taxIds : List String)
    (stoFiles : List (String × List (String × String))) :
    ∀ (ps : List String), (∀ q ∈ ps, q ∈ proteomes) →
      ∀ (st : MergeState), mergeInv proteomes st →
        mergeInv proteomes (mergeAllFrom aceMap taxIds stoFiles st ps) := by
  intro ps
  induction ps with
  | nil => intro _ st h; simpa [mergeAllFrom] using h
  | cons p rest ih =>
    intro hsub st h
    simp only [mergeAllFrom]
    exact ih (fun q hq => hsub q (by simp [hq])) _
      (processProteome_inv aceMap taxIds stoFiles st (hsub p (by simp)) h)

theorem mergeAll_inv (aceMap : List (String × String)) (taxIds : List String)
    (stoFiles : List (String × List (String × String)))
    (proteomes : List String) :
    mergeInv proteomes (mergeAll aceMap taxIds stoFiles proteomes) := by
  unfold mergeAll
  refine mergeAllFrom_inv aceMap taxIds stoFiles proteomes (fun q hq => hq)
    initMergeState ⟨rfl, rfl, ?_⟩
  intro i hi
  simp [initMergeState] at hi

/-- C10: the counter is advanced exactly once per written sequence and
the written name uses counter + 1, so the records of `aligned.fasta`
(and the rows of `seq_info.csv`, equally many) carry the consecutive
suffixes 1, 2, ..., N in write order — no gaps, no suffix 0; excluded
sequences consume no counter value. -/
theorem fasta_counters_consecutive (aceMap : List (String × String))
    (taxIds : List String) (stoFiles : List (String × List (String × String)))
    (proteomes : List String) :
    (mergeAll aceMap taxIds stoFiles proteomes).fasta.length =
        (mergeAll aceMap taxIds stoFiles proteomes).seqNum ∧
      (mergeAll aceMap taxIds stoFiles proteomes).seqinfo.length =
        (mergeAll aceMap taxIds stoFiles proteomes).seqNum ∧
      ∀ (i : Nat) (hi : i < (mergeAll aceMap taxIds stoFiles proteomes).fasta.length),
        ∃ db, ((mergeAll aceMap taxIds stoFiles proteomes).fasta.get ⟨i, hi⟩).1 =
          db ++ "_" ++ toString (i + 1) := by
  obtain ⟨h1, h2, h3⟩ := mergeAll_inv aceMap taxIds stoFiles proteomes
  exact ⟨h2, h1, fun i hi => (h3 i hi).elim fun p hp => ⟨dbIdOf p, hp.2⟩⟩

theorem fasta_counters_consecutive_witness :
    (mergeAll [("A1", "K")] ["root;K"] [("A1.faa.sto", [("x", "MSEQ"),
        ("y", "MPQR")])] ["A1.faa"]).fasta.length =
      (mergeAll [("A1", "K")] ["root;K"] [("A1.faa.sto", [("x", "MSEQ"),
        ("y", "MPQR")])] ["A1.faa"]).seqNum ∧
    ∃ db, ((mergeAll [("A1", "K")] ["root;K"] [("A1.faa.sto", [("x", "MSEQ"),
        ("y", "MPQR")])] ["A1.faa"]).fasta.get ⟨1, by decide⟩).1 =
      db ++ "_" ++ toString 2 :=
  ⟨(fasta_counters_consecutive [("A1", "K")] ["root;K"]
      [("A1.faa.sto", [("x", "MSEQ"), ("y", "MPQR")])] ["A1.faa"]).1,
   (fasta_counters_consecutive [("A1", "K")] ["root;K"]
      [("A1.faa.sto", [("x", "MSEQ"), ("y", "MPQR")])] ["A1.faa"]).2.2 1
     (by decide)⟩

/-- C9: the sequence names written to `aligned.fasta` are globally
unique, each of the form `<genomeID>_<counter>` for a genome of the
input proteome list, and the counter suffixes are strictly increasing in
write order (the `i`-th record in write order carries suffix
`i + 1`). -/
theorem fasta_names_unique (aceMap : List (String × String))
    (taxIds : List String) (stoFiles : List (String × List (String × String)))
    (proteomes : List String) :
    ((mergeAll aceMap taxIds stoFiles proteomes).fasta.map Prod.fst).Nodup ∧
      ∀ (i : Nat) (hi : i < (mergeAll aceMap taxIds stoFiles proteomes).fasta.length),
        ∃ p ∈ proteomes,
          ((mergeAll aceMap taxIds stoFiles proteomes).fasta.get ⟨i, hi⟩).1 =
            dbIdOf p ++ "_" ++ toString (i + 1) := by
  obtain ⟨h1, h2, h3⟩ := mergeAll_inv aceMap taxIds stoFiles proteomes
  refine ⟨?_, h3⟩
  rw [List.nodup_iff_injective_get]
  intro a b hab
  obtain ⟨i, hi⟩ := a
  obtain ⟨j, hj⟩ := b
  simp only [List.get_eq_getElem, List.getElem_map, List.length_map] at hab hi hj
  obtain ⟨p, _, hpi⟩ := h3 i hi
  obtain ⟨q, _, hqj⟩ := h3 j hj
  simp only [List.get_eq_getElem] at hpi hqj
  have hnames : dbIdOf p ++ "_" ++ toString (i + 1) =
      dbIdOf q ++ "_" ++ toString (j + 1) := by
    rw [← hpi, ← hqj, hab]
  have hsuf := merged_name_inj hnames
  have hij : i = j := by omega
  subst hij
  rfl

theorem fasta_names_unique_witness :
    ((mergeAll [("A1", "K")] ["root;K"] [("A1.faa.sto", [("x", "MSEQ"),
        ("y", "MPQR")])] ["A1.faa"]).fasta.map Prod.fst).Nodup ∧
      ∃ p ∈ ["A1.faa"],
        ((mergeAll [("A1", "K")] ["root;K"] [("A1.faa.sto", [("x", "MSEQ"),
            ("y", "MPQR")])] ["A1.faa"]).fasta.get ⟨0, by decide⟩).1 =
          dbIdOf p ++ "_" ++ toString 1 :=
  ⟨(fasta_names_unique [("A1", "K")] ["root;K"]
      [("A1.faa.sto", [("x", "MSEQ"), ("y", "MPQR")])] ["A1.faa"]).1,
   (fasta_names_unique [("A1", "K")] ["root;K"]
      [("A1.faa.sto", [("x", "MSEQ"), ("y", "MPQR")])] ["A1.faa"]).2 0
     (by decide)⟩

end Mingle
